import Mathlib

/-!
Verification of the sailor terminal-UI toolkit (src/sailor.py).

The Python source is shallowly embedded: each widget class becomes a Lean
structure holding exactly the mutable attributes the claims concern, and each
`on_event` method becomes a pure state-transition function that follows the
source's sequence of `if` statements (they are *not* `elif` chains, so several
branches may fire for one key — faithfully modelled by sequential `let`
rebindings).  Python integers are `Int`, Python strings are `List Char`,
Python list/string slices get Python's clamping semantics via `pyBound`.
-/

namespace Sailor

/-! ### Key-code constants (values from `curses` and sailor.py lines 12-16) -/

def CTRL_A : Int := 1
def CTRL_E : Int := 5
def ALT_BS : Int := 127
def ALT_ENTER : Int := 10
def SHIFT_TAB : Int := 353
def KEY_ENTER : Int := 343
def KEY_UP : Int := 259
def KEY_DOWN : Int := 258
def KEY_LEFT : Int := 260
def KEY_RIGHT : Int := 261
def KEY_BACKSPACE : Int := 263
def ASCII_ESC : Int := 27
def ASCII_TAB : Int := 9
def ASCII_DEL : Int := 127

/-- `is_enter(ev)` from sailor.py line 36: the key is one of the two enter codes. -/
def is_enter (key : Int) : Bool := key == KEY_ENTER || key == ALT_ENTER

/-! ### Python slice semantics

`xs[:b]` and `xs[a:]` clamp out-of-range indices; a negative index counts from
the end.  `pyBound n i` is the effective non-negative index for bound `i` on a
sequence of length `n`. -/

def pyBound (n : Nat) (i : Int) : Nat :=
  if i < 0 then ((n : Int) + i).toNat else min i.toNat n

/-- Python `xs[:b]`. -/
def pySliceTo (xs : List Char) (b : Int) : List Char :=
  xs.take (pyBound xs.length b)

/-- Python `xs[a:]`. -/
def pySliceFrom (xs : List Char) (a : Int) : List Char :=
  xs.drop (pyBound xs.length a)

theorem pyBound_le (n : Nat) (i : Int) : pyBound n i ≤ n := by
  unfold pyBound; split <;> omega

theorem length_pySliceTo (xs : List Char) (b : Int) :
    (pySliceTo xs b).length = pyBound xs.length b := by
  simp [pySliceTo]
  exact pyBound_le _ _

theorem length_pySliceFrom (xs : List Char) (a : Int) :
    (pySliceFrom xs a).length = xs.length - pyBound xs.length a := by
  simp [pySliceFrom]

theorem pyBound_of_nonneg_le (n : Nat) (i : Int) (h0 : 0 ≤ i) (h1 : i ≤ (n : Int)) :
    pyBound n i = i.toNat := by
  unfold pyBound; split <;> omega

/-- Splitting a list at one index and re-appending gives the list back
(the effect of `value[:cursor] + value[cursor:]` in sailor.py line 546). -/
theorem pySliceTo_append_pySliceFrom (xs : List Char) (c : Int) :
    pySliceTo xs c ++ pySliceFrom xs c = xs := by
  simp [pySliceTo, pySliceFrom]

/-! ### Edit widget (sailor.py lines 520-563) -/

structure Edit where
  value : List Char
  cursor : Int
deriving DecidableEq, Repr

/-- `Edit.__init__` (lines 521-525): cursor starts at `len(value)`. -/
def Edit.init (value : List Char) : Edit :=
  { value := value, cursor := (value.length : Int) }

/-- `Edit.on_event` for a key event (lines 537-563).  The method body is a
sequence of independent `if` statements; each `let` below is one of them, in
source order.  `ev.stop()` only halts upward propagation, not the remaining
`if`s, so it does not appear in the state transition. -/
def Edit.on_event (e : Edit) (key : Int) : Edit :=
  -- if ev.key == CTRL_A: self.cursor = 0
  let c1 : Int := if key = CTRL_A then 0 else e.cursor
  -- if ev.key == CTRL_E: self.cursor = len(self.value)
  let c2 : Int := if key = CTRL_E then (e.value.length : Int) else c1
  -- if ev.key in [curses.KEY_BACKSPACE, ALT_BS]:
  --   self.value = self.value[:self.cursor] + self.value[self.cursor:]
  --   self.cursor = max(0, self.cursor - 1)
  let v3 : List Char :=
    if key = KEY_BACKSPACE ∨ key = ALT_BS then
      pySliceTo e.value c2 ++ pySliceFrom e.value c2
    else e.value
  let c3 : Int := if key = KEY_BACKSPACE ∨ key = ALT_BS then max 0 (c2 - 1) else c2
  -- if ev.key == curses.ascii.DEL:
  --   self.value = self.value[:self.cursor] + self.value[self.cursor+1:]
  let v4 : List Char :=
    if key = ASCII_DEL then pySliceTo v3 c3 ++ pySliceFrom v3 (c3 + 1) else v3
  -- if ev.key == curses.KEY_LEFT and self.cursor > 0: self.cursor -= 1
  let c5 : Int := if key = KEY_LEFT ∧ 0 < c3 then c3 - 1 else c3
  -- if ev.key == curses.KEY_RIGHT and self.cursor < len(self.value): self.cursor += 1
  let c6 : Int := if key = KEY_RIGHT ∧ c5 < (v4.length : Int) then c5 + 1 else c5
  -- if is_enter(ev): ev.key = curses.ascii.TAB
  let k7 : Int := if is_enter key then ASCII_TAB else key
  -- if 32 <= ev.key < 127: insert chr(ev.key) at the cursor, advance cursor
  let v8 : List Char :=
    if 32 ≤ k7 ∧ k7 < 127 then
      pySliceTo v4 c6 ++ [Char.ofNat k7.toNat] ++ pySliceFrom v4 c6
    else v4
  let c8 : Int := if 32 ≤ k7 ∧ k7 < 127 then c6 + 1 else c6
  { value := v8, cursor := c8 }

/-- The Edit cursor bound from the spec: `0 ≤ cursor ≤ len(value)`. -/
def EditInv (e : Edit) : Prop :=
  0 ≤ e.cursor ∧ e.cursor ≤ (e.value.length : Int)

/-- C1: pressing Backspace as key code `curses.KEY_BACKSPACE` (263) on
`Edit("hello")` with cursor 5 leaves the value `"hello"` unchanged and only
decrements the cursor: line 546 rebuilds `value[:cursor] + value[cursor:]`,
which never removes a character, contradicting the specified
`value="hell", cursor=4`. -/
theorem backspace_key263_keeps_value :
    Edit.on_event ⟨['h','e','l','l','o'], 5⟩ KEY_BACKSPACE
      = ⟨['h','e','l','l','o'], 4⟩ := by
  decide

/-- C10: a single key-127 event triggers both the Backspace branch (line 545)
and the Delete branch (line 549, since `curses.ascii.DEL` is also 127): for
cursor `c > 0` the net effect removes the character before the original
cursor and decrements the cursor; at cursor 0 it removes the *first*
character (cursor stays 0), so key 127 is not a no-op at cursor 0 on a
non-empty value. -/
theorem edit_key127_double_branch :
    (∀ (v : List Char) (c : Int), 0 < c → c ≤ (v.length : Int) →
        Edit.on_event ⟨v, c⟩ 127 = ⟨v.take (c.toNat - 1) ++ v.drop c.toNat, c - 1⟩) ∧
    (∀ v : List Char, Edit.on_event ⟨v, 0⟩ 127 = ⟨v.drop 1, 0⟩) ∧
    (∀ v : List Char, v ≠ [] → Edit.on_event ⟨v, 0⟩ 127 ≠ ⟨v, 0⟩) := by
  have key127 : ∀ (v : List Char) (c : Int),
      Edit.on_event ⟨v, c⟩ 127
        = ⟨pySliceTo v (max 0 (c - 1)) ++ pySliceFrom v (max 0 (c - 1) + 1),
           max 0 (c - 1)⟩ := by
    intro v c
    unfold Edit.on_event
    simp [CTRL_A, CTRL_E, KEY_BACKSPACE, ALT_BS, ASCII_DEL, KEY_LEFT, KEY_RIGHT,
      is_enter, KEY_ENTER, ALT_ENTER, pySliceTo_append_pySliceFrom]
  have part2 : ∀ v : List Char, Edit.on_event ⟨v, 0⟩ 127 = ⟨v.drop 1, 0⟩ := by
    intro v
    rw [key127]
    have h1 : max 0 ((0 : Int) - 1) = 0 := by omega
    rw [h1]
    have h2 : pyBound v.length 0 = 0 := by simp [pyBound]
    have h3 : List.drop (pyBound v.length (0 + 1)) v = List.drop 1 v := by
      norm_num
      cases v with
      | nil => simp
      | cons a as => simp [pyBound, Nat.min_def]
    simp only [pySliceTo, pySliceFrom, h2, List.take_zero, List.nil_append]
    rw [h3]
  refine ⟨?_, part2, ?_⟩
  · intro v c hc hcle
    rw [key127]
    have h1 : max 0 (c - 1) = c - 1 := by omega
    rw [h1]
    have h2 : pyBound v.length (c - 1) = c.toNat - 1 := by
      rw [pyBound_of_nonneg_le _ _ (by omega) (by omega)]; omega
    have h3 : pyBound v.length (c - 1 + 1) = c.toNat := by
      rw [pyBound_of_nonneg_le _ _ (by omega) (by omega)]; omega
    simp only [pySliceTo, pySliceFrom, h2, h3]
  · intro v hv heq
    rw [part2 v] at heq
    have hlen := congrArg (fun e : Edit => e.value.length) heq
    simp only [List.length_drop] at hlen
    have hne : v.length ≠ 0 := by simpa using hv
    omega
/-- Witness for `edit_key127_double_branch` at `Edit("hello", cursor=5)` and
`Edit("ab", cursor=0)`. -/
theorem edit_key127_double_branch_witness :
    Edit.on_event ⟨['h','e','l','l','o'], 5⟩ 127 = ⟨['h','e','l','l'], 4⟩ ∧
    Edit.on_event ⟨['a','b'], 0⟩ 127 = ⟨['b'], 0⟩ ∧
    Edit.on_event ⟨['a','b'], 0⟩ 127 ≠ ⟨['a','b'], 0⟩ := by
  refine ⟨?_, ?_, ?_⟩
  · have h := edit_key127_double_branch.1 ['h','e','l','l','o'] 5
      (by decide) (by decide)
    simpa using h
  · exact edit_key127_double_branch.2.1 ['a','b']
  · exact edit_key127_double_branch.2.2 ['a','b'] (by decide)

set_option maxHeartbeats 2000000 in
theorem edit_on_event_preserves (e : Edit) (key : Int) (h : EditInv e) :
    EditInv (Edit.on_event e key) := by
  obtain ⟨h0, h1⟩ := h
  unfold Edit.on_event EditInv
  simp only [is_enter, CTRL_A, CTRL_E, KEY_BACKSPACE, ALT_BS, ASCII_DEL, KEY_LEFT,
    KEY_RIGHT, KEY_ENTER, ALT_ENTER, ASCII_TAB, Bool.or_eq_true, beq_iff_eq]
  split_ifs <;>
    (try simp only [List.length_append, length_pySliceTo, length_pySliceFrom,
        List.length_cons, List.length_nil]) <;>
    (try simp only [pyBound]) <;>
    (try split_ifs) <;>
    omega

/-- C6: the Edit cursor bound `0 ≤ cursor ≤ len(value)` holds for a freshly
constructed Edit, is preserved by `on_event` on every key (printable
insertion, backspace, delete, left, right, ctrl-A, ctrl-E, enter and any
other code), and hence holds after any finite sequence of key events. -/
theorem edit_cursor_bound_invariant :
    (∀ v : List Char, EditInv (Edit.init v)) ∧
    (∀ (e : Edit) (key : Int), EditInv e → EditInv (Edit.on_event e key)) ∧
    (∀ (e : Edit) (keys : List Int), EditInv e →
        EditInv (keys.foldl Edit.on_event e)) := by
  refine ⟨?_, edit_on_event_preserves, ?_⟩
  · intro v
    exact ⟨by simp [Edit.init], by simp [Edit.init]⟩
  · intro e keys
    induction keys generalizing e with
    | nil => intro h; exact h
    | cons k ks ih =>
      intro h
      exact ih _ (edit_on_event_preserves _ _ h)

/-- Witness for `edit_cursor_bound_invariant`: `Edit("hi")` after the keys
ctrl-A, delete, right, `'!'`, backspace. -/
theorem edit_cursor_bound_invariant_witness :
    EditInv (([CTRL_A, ASCII_DEL, KEY_RIGHT, 33, KEY_BACKSPACE] :
        List Int).foldl Edit.on_event (Edit.init ['h','i'])) :=
  edit_cursor_bound_invariant.2.2 (Edit.init ['h','i'])
    [CTRL_A, ASCII_DEL, KEY_RIGHT, 33, KEY_BACKSPACE]
    (edit_cursor_bound_invariant.1 ['h','i'])

/-! ### SelectList widget (sailor.py lines 320-354) -/

structure SelectList where
  choices : List String
  index : Int
  width : Int
  height : Int
  scroll_offset : Int
deriving DecidableEq, Repr

/-- `SelectList.__init__` (lines 321-328):
`scroll_offset = max(0, min(index, len(choices) - height))`. -/
def SelectList.init (choices : List String) (index width height : Int) :
    SelectList :=
  { choices := choices, index := index, width := width, height := height,
    scroll_offset := max 0 (min index ((choices.length : Int) - height)) }

/-- `SelectList.on_event` for a key event (lines 345-354): two independent
`if`s, for KEY_UP and KEY_DOWN, each moving `index` by one inside the bounds
and then clamping `scroll_offset` toward the new index. -/
def SelectList.on_event (s : SelectList) (key : Int) : SelectList :=
  -- if ev.key == curses.KEY_UP and 0 < self.index:
  --   self.index -= 1; self.scroll_offset = min(self.scroll_offset, self.index)
  let s :=
    if key = KEY_UP ∧ 0 < s.index then
      let s := { s with index := s.index - 1 }
      { s with scroll_offset := min s.scroll_offset s.index }
    else s
  -- if ev.key == curses.KEY_DOWN and self.index < len(self.choices) - 1:
  --   self.index += 1
  --   self.scroll_offset = max(self.scroll_offset, self.index - self.height + 1)
  let s :=
    if key = KEY_DOWN ∧ s.index < (s.choices.length : Int) - 1 then
      let s := { s with index := s.index + 1 }
      { s with scroll_offset := max s.scroll_offset (s.index - s.height + 1) }
    else s
  s

/-- The SelectList window invariant from the spec. -/
def SLInv (s : SelectList) : Prop :=
  0 ≤ s.scroll_offset ∧
  s.scroll_offset ≤ max 0 ((s.choices.length : Int) - s.height) ∧
  s.scroll_offset ≤ s.index ∧
  s.index ≤ s.scroll_offset + s.height - 1

instance (s : SelectList) : Decidable (SLInv s) := by
  unfold SLInv; infer_instance

theorem selectlist_on_event_fixed (s : SelectList) (key : Int) :
    (SelectList.on_event s key).choices = s.choices ∧
    (SelectList.on_event s key).height = s.height := by
  unfold SelectList.on_event
  dsimp only
  split_ifs <;> simp

theorem selectlist_on_event_preserves (s : SelectList) (key : Int)
    (hh : 1 ≤ s.height) (h : SLInv s) : SLInv (SelectList.on_event s key) := by
  obtain ⟨h0, h1, h2, h3⟩ := h
  unfold SelectList.on_event SLInv
  dsimp only
  split_ifs <;> (try dsimp only) <;> omega

/-- C3 (amended: height ≥ 1): the SelectList window invariant
`0 ≤ scroll_offset ≤ max(0, N−H)` and `scroll_offset ≤ index ≤
scroll_offset + H − 1` holds right after construction with a valid index,
is preserved by `on_event` on every key, and hence holds after any finite
sequence of key events. -/
theorem selectlist_invariant_holds :
    (∀ (choices : List String) (index width height : Int),
        1 ≤ height → 0 ≤ index → index < (choices.length : Int) →
        SLInv (SelectList.init choices index width height)) ∧
    (∀ (s : SelectList) (key : Int), 1 ≤ s.height → SLInv s →
        SLInv (SelectList.on_event s key)) ∧
    (∀ (s : SelectList) (keys : List Int), 1 ≤ s.height → SLInv s →
        SLInv (keys.foldl SelectList.on_event s)) := by
  refine ⟨?_, selectlist_on_event_preserves, ?_⟩
  · intro choices index width height hh hi0 hiN
    unfold SelectList.init SLInv
    dsimp only
    omega
  · intro s keys
    induction keys generalizing s with
    | nil => intro _ h; exact h
    | cons k ks ih =>
      intro hh h
      have hfix := selectlist_on_event_fixed s k
      exact ih _ (by rw [hfix.2]; exact hh)
        (selectlist_on_event_preserves s k hh h)

/-- C3 counterexample: as stated (with no restriction on the window height)
the claim is false: for `SelectList(["a"], index=0, height=0)` the initial
state already violates `index ≤ scroll_offset + height − 1` (it demands
`0 ≤ −1`). -/
theorem selectlist_invariant_h0_fails :
    ¬ SLInv (SelectList.init ["a"] 0 30 0) := by
  decide

/-- Witness for `selectlist_invariant_holds`:
`SelectList(["a","b","c"], index=1, height=2)` after up, up, down. -/
theorem selectlist_invariant_witness :
    SLInv (([KEY_UP, KEY_UP, KEY_DOWN] : List Int).foldl SelectList.on_event
      (SelectList.init ["a","b","c"] 1 30 2)) :=
  selectlist_invariant_holds.2.2 (SelectList.init ["a","b","c"] 1 30 2)
    [KEY_UP, KEY_UP, KEY_DOWN] (by decide)
    (selectlist_invariant_holds.1 ["a","b","c"] 1 30 2 (by decide) (by decide)
      (by decide))

/-- C8: Down increments `index` when `index < N−1` and is a no-op otherwise,
and moves `scroll_offset` only by the minimum needed to keep the new index in
the visible window (it never moves when the index is already visible, and any
window position at least as low that shows the new index is at least the new
offset); symmetrically for Up.  The scenario
`SelectList(["a","b","c"], index=0, height=2)`: two Downs give
`index=2, scroll_offset=1`, a third Down changes nothing. -/
theorem selectlist_updown_minimal_scroll :
    (∀ s : SelectList, s.index < (s.choices.length : Int) - 1 →
        (SelectList.on_event s KEY_DOWN).index = s.index + 1 ∧
        (SelectList.on_event s KEY_DOWN).scroll_offset
          = max s.scroll_offset (s.index + 1 - s.height + 1) ∧
        (s.index + 1 ≤ s.scroll_offset + s.height - 1 →
          (SelectList.on_event s KEY_DOWN).scroll_offset = s.scroll_offset) ∧
        (∀ t : Int, s.scroll_offset ≤ t → s.index + 1 ≤ t + s.height - 1 →
          (SelectList.on_event s KEY_DOWN).scroll_offset ≤ t)) ∧
    (∀ s : SelectList, ¬ s.index < (s.choices.length : Int) - 1 →
        SelectList.on_event s KEY_DOWN = s) ∧
    (∀ s : SelectList, 0 < s.index →
        (SelectList.on_event s KEY_UP).index = s.index - 1 ∧
        (SelectList.on_event s KEY_UP).scroll_offset
          = min s.scroll_offset (s.index - 1) ∧
        (s.scroll_offset ≤ s.index - 1 →
          (SelectList.on_event s KEY_UP).scroll_offset = s.scroll_offset) ∧
        (∀ t : Int, t ≤ s.scroll_offset → t ≤ s.index - 1 →
          t ≤ (SelectList.on_event s KEY_UP).scroll_offset)) ∧
    (∀ s : SelectList, ¬ 0 < s.index → SelectList.on_event s KEY_UP = s) ∧
    ((([KEY_DOWN, KEY_DOWN] : List Int).foldl SelectList.on_event
        (SelectList.init ["a","b","c"] 0 30 2)).index = 2 ∧
     (([KEY_DOWN, KEY_DOWN] : List Int).foldl SelectList.on_event
        (SelectList.init ["a","b","c"] 0 30 2)).scroll_offset = 1 ∧
     (([KEY_DOWN, KEY_DOWN, KEY_DOWN] : List Int).foldl SelectList.on_event
        (SelectList.init ["a","b","c"] 0 30 2))
       = (([KEY_DOWN, KEY_DOWN] : List Int).foldl SelectList.on_event
        (SelectList.init ["a","b","c"] 0 30 2))) := by
  have hdown : ∀ s : SelectList, s.index < (s.choices.length : Int) - 1 →
      SelectList.on_event s KEY_DOWN
        = { s with
              index := s.index + 1
              scroll_offset := max s.scroll_offset (s.index + 1 - s.height + 1) } := by
    intro s hs
    unfold SelectList.on_event
    dsimp only
    rw [if_neg (show ¬(KEY_DOWN = KEY_UP ∧ 0 < s.index) by simp [KEY_UP, KEY_DOWN])]
    rw [if_pos (show KEY_DOWN = KEY_DOWN ∧ s.index < (s.choices.length : Int) - 1
      from ⟨rfl, hs⟩)]
  have hup : ∀ s : SelectList, 0 < s.index →
      SelectList.on_event s KEY_UP
        = { s with
              index := s.index - 1
              scroll_offset := min s.scroll_offset (s.index - 1) } := by
    intro s hs
    unfold SelectList.on_event
    dsimp only
    rw [if_pos (show KEY_UP = KEY_UP ∧ 0 < s.index from ⟨rfl, hs⟩)]
    rw [if_neg (show ¬(KEY_UP = KEY_DOWN ∧
      ({ s with
          index := s.index - 1
          scroll_offset := min s.scroll_offset (s.index - 1) } :
        SelectList).index <
      (({ s with
          index := s.index - 1
          scroll_offset := min s.scroll_offset (s.index - 1) } :
        SelectList).choices.length : Int) - 1) by simp [KEY_UP, KEY_DOWN])]
  refine ⟨?_, ?_, ?_, ?_, by decide, by decide, by decide⟩
  · intro s hs
    rw [hdown s hs]
    refine ⟨rfl, rfl, ?_, ?_⟩ <;> dsimp only <;> omega
  · intro s hs
    unfold SelectList.on_event
    dsimp only
    rw [if_neg (show ¬(KEY_DOWN = KEY_UP ∧ 0 < s.index) by simp [KEY_UP, KEY_DOWN])]
    rw [if_neg (show ¬(KEY_DOWN = KEY_DOWN ∧ s.index < (s.choices.length : Int) - 1)
      from fun h => hs h.2)]
  · intro s hs
    rw [hup s hs]
    refine ⟨rfl, rfl, ?_, ?_⟩ <;> dsimp only <;> omega
  · intro s hs
    unfold SelectList.on_event
    dsimp only
    rw [if_neg (show ¬(KEY_UP = KEY_UP ∧ 0 < s.index) from fun h => hs h.2)]
    rw [if_neg (show ¬(KEY_UP = KEY_DOWN ∧ s.index < (s.choices.length : Int) - 1)
      by simp [KEY_UP, KEY_DOWN])]

/-- Witness for `selectlist_updown_minimal_scroll`: one Down on
`SelectList(["a","b","c"], index=0, height=2)`. -/
theorem selectlist_updown_minimal_scroll_witness :
    (SelectList.on_event (SelectList.init ["a","b","c"] 0 30 2) KEY_DOWN).index
        = 0 + 1 ∧
    (SelectList.on_event (SelectList.init ["a","b","c"] 0 30 2)
        KEY_DOWN).scroll_offset = max 0 (0 + 1 - 2 + 1) := by
  have h := selectlist_updown_minimal_scroll.1
    (SelectList.init ["a","b","c"] 0 30 2) (by decide)
  exact ⟨h.1, h.2.1⟩

/-! ### SelectDate widget (sailor.py lines 358-403)

`self.value` is a `datetime.datetime`; the handlers only ever add
`timedelta(days=±1)` or `timedelta(weeks=±1)`, which is exact
proleptic-Gregorian day arithmetic.  A date is embedded as a
year/month/day triple and `timedelta` addition as iterated
next-day/previous-day steps. -/

structure Date where
  year : Int
  month : Int
  day : Int
deriving DecidableEq, Repr

def isLeap (y : Int) : Bool :=
  y % 4 == 0 && (y % 100 != 0 || y % 400 == 0)

def daysInMonth (y m : Int) : Int :=
  if m = 2 then (if isLeap y then 29 else 28)
  else if m = 4 ∨ m = 6 ∨ m = 9 ∨ m = 11 then 30
  else 31

def Date.nextDay (d : Date) : Date :=
  if d.day < daysInMonth d.year d.month then { d with day := d.day + 1 }
  else if d.month < 12 then { d with month := d.month + 1, day := 1 }
  else { year := d.year + 1, month := 1, day := 1 }

def Date.prevDay (d : Date) : Date :=
  if 1 < d.day then { d with day := d.day - 1 }
  else if 1 < d.month then
    { d with month := d.month - 1, day := daysInMonth d.year (d.month - 1) }
  else { year := d.year - 1, month := 12, day := 31 }

/-- `value + datetime.timedelta(days=n)`. -/
def Date.addDays (d : Date) (n : Int) : Date :=
  if 0 ≤ n then Date.nextDay^[n.toNat] d else Date.prevDay^[(-n).toNat] d

/-- `SelectDate.on_event` for a key event (lines 387-403): five independent
`if`s on `ev.what`; `now` stands for `datetime.datetime.now()`. -/
def SelectDate.on_event (value now : Date) (key : Int) : Date :=
  -- if ev.what == ord('t'): self.value = datetime.datetime.now()
  let value := if key = 116 then now else value
  -- if ev.what == curses.KEY_LEFT: self.value += datetime.timedelta(days=-1)
  let value := if key = KEY_LEFT then value.addDays (-1) else value
  -- if ev.what == curses.KEY_RIGHT: self.value += datetime.timedelta(days=1)
  let value := if key = KEY_RIGHT then value.addDays 1 else value
  -- if ev.what == curses.KEY_UP: self.value += datetime.timedelta(weeks=-1)
  let value := if key = KEY_UP then value.addDays (-7) else value
  -- if ev.what == curses.KEY_DOWN: self.value += datetime.timedelta(weeks=1)
  let value := if key = KEY_DOWN then value.addDays 7 else value
  value

/-- C7: in a SelectDate, Right advances the value by exactly one day, Left
moves it back one day, Up back one week, Down forward one week, and `t` sets
it to the current date; day arithmetic is unbounded and years roll over.  In
particular 2024-01-15 + Right = 2024-01-16 and then + Up = 2024-01-09. -/
theorem selectdate_key_arithmetic :
    (∀ d now : Date, SelectDate.on_event d now KEY_RIGHT = Date.nextDay d) ∧
    (∀ d now : Date, SelectDate.on_event d now KEY_LEFT = Date.prevDay d) ∧
    (∀ d now : Date, SelectDate.on_event d now KEY_UP = Date.prevDay^[7] d) ∧
    (∀ d now : Date, SelectDate.on_event d now KEY_DOWN = Date.nextDay^[7] d) ∧
    (∀ d now : Date, SelectDate.on_event d now 116 = now) ∧
    (∀ y : Int, Date.nextDay ⟨y, 12, 31⟩ = ⟨y + 1, 1, 1⟩ ∧
        Date.prevDay ⟨y, 1, 1⟩ = ⟨y - 1, 12, 31⟩) ∧
    (∀ now : Date, SelectDate.on_event ⟨2024, 1, 15⟩ now KEY_RIGHT
        = ⟨2024, 1, 16⟩) ∧
    (∀ now : Date, SelectDate.on_event ⟨2024, 1, 16⟩ now KEY_UP
        = ⟨2024, 1, 9⟩) := by
  have hright : ∀ d now : Date,
      SelectDate.on_event d now KEY_RIGHT = Date.nextDay d := by
    intro d now
    unfold SelectDate.on_event
    norm_num [KEY_LEFT, KEY_RIGHT, KEY_UP, KEY_DOWN, Date.addDays]
  have hleft : ∀ d now : Date,
      SelectDate.on_event d now KEY_LEFT = Date.prevDay d := by
    intro d now
    unfold SelectDate.on_event
    norm_num [KEY_LEFT, KEY_RIGHT, KEY_UP, KEY_DOWN, Date.addDays]
  have hupk : ∀ d now : Date,
      SelectDate.on_event d now KEY_UP = Date.prevDay^[7] d := by
    intro d now
    unfold SelectDate.on_event
    norm_num [KEY_LEFT, KEY_RIGHT, KEY_UP, KEY_DOWN, Date.addDays]
    rfl
  have hdownk : ∀ d now : Date,
      SelectDate.on_event d now KEY_DOWN = Date.nextDay^[7] d := by
    intro d now
    unfold SelectDate.on_event
    norm_num [KEY_LEFT, KEY_RIGHT, KEY_UP, KEY_DOWN, Date.addDays]
    rfl
  refine ⟨hright, hleft, hupk, hdownk, ?_, ?_, ?_, ?_⟩
  · intro d now
    unfold SelectDate.on_event
    norm_num [KEY_LEFT, KEY_RIGHT, KEY_UP, KEY_DOWN]
  · intro y
    constructor
    · unfold Date.nextDay
      norm_num [daysInMonth]
    · unfold Date.prevDay
      norm_num
  · intro now
    rw [hright]
    decide
  · intro now
    rw [hupk]
    decide

/-! ### Combo + Popup (sailor.py lines 435-493)

When a Combo receives Enter it pushes a Popup layer whose inner control is
`SelectList(self.choices, self.index)` (width 30, height 10 by default).
While the popup layer is on top, every key event is dispatched to the
focused SelectList first and then bubbles to the Popup, which handles
Escape (`on_close(False)` + pop) and Enter (`on_close(True)` + pop); other
keys never reach the Combo because the SelectList stops the ones it
handles and the base layer is not interactive. -/

structure Combo where
  choices : List String
  index : Int
deriving DecidableEq, Repr

/-- `Combo.on_popup_close` (lines 491-493): commit the inner SelectList's
index only on acceptance. -/
def Combo.on_popup_close (c : Combo) (success : Bool) (inner : SelectList) :
    Combo :=
  if success then { c with index := inner.index } else c

/-- One key event for a Combo together with its (possibly open) popup
layer, combining `Combo.on_event` (lines 484-489), `Popup.on_event`
(lines 457-464) and the dispatch order (focused SelectList first, then the
Popup, which pops the layer). -/
structure ComboApp where
  combo : Combo
  popup : Option SelectList
deriving DecidableEq, Repr

def ComboApp.key (a : ComboApp) (k : Int) : ComboApp :=
  match a.popup with
  | none =>
      -- Combo.on_event: Enter opens Popup(SelectList(choices, index)).show
      if is_enter k then
        { a with popup := some (SelectList.init a.combo.choices a.combo.index 30 10) }
      else a
  | some inner =>
      -- the focused SelectList handles the key first ...
      let inner := SelectList.on_event inner k
      -- ... then Popup.on_event: Escape → on_close(False) + pop,
      -- Enter → on_close(True) + pop
      if k = ASCII_ESC then
        { combo := a.combo.on_popup_close false inner, popup := none }
      else if is_enter k then
        { combo := a.combo.on_popup_close true inner, popup := none }
      else { a with popup := some inner }

theorem comboApp_nav (c : Combo) (inner : SelectList) (ks : List Int)
    (hks : ∀ k ∈ ks, k = KEY_UP ∨ k = KEY_DOWN) :
    ks.foldl ComboApp.key ⟨c, some inner⟩
      = ⟨c, some (ks.foldl SelectList.on_event inner)⟩ := by
  induction ks generalizing inner with
  | nil => rfl
  | cons k ks ih =>
    have hk := hks k (List.mem_cons_self k ks)
    have hstep : ComboApp.key ⟨c, some inner⟩ k
        = ⟨c, some (SelectList.on_event inner k)⟩ := by
      unfold ComboApp.key
      have h1 : ¬ k = ASCII_ESC := by
        rcases hk with h | h <;> simp [h, ASCII_ESC, KEY_UP, KEY_DOWN]
      have h2 : is_enter k = false := by
        rcases hk with h | h <;> simp [h, is_enter, KEY_ENTER, ALT_ENTER,
          KEY_UP, KEY_DOWN]
      simp [h1, h2]
    rw [List.foldl_cons, hstep, ih _ (fun k hk => hks k (List.mem_cons_of_mem _ hk)),
      List.foldl_cons]

/-- C5: opening a Combo's popup with Enter seeds a SelectList with the
Combo's current index; after any sequence of up/down keys inside the popup,
Enter commits the popup's selected index to the Combo, while Escape closes
the popup leaving the Combo exactly as it was. -/
theorem combo_popup_commit_cancel (c : Combo) (ks : List Int)
    (hks : ∀ k ∈ ks, k = KEY_UP ∨ k = KEY_DOWN) :
    (ComboApp.key ⟨c, none⟩ KEY_ENTER).popup
        = some (SelectList.init c.choices c.index 30 10) ∧
    (SelectList.init c.choices c.index 30 10).index = c.index ∧
    (ComboApp.key (ks.foldl ComboApp.key (ComboApp.key ⟨c, none⟩ KEY_ENTER))
        KEY_ENTER).combo.index
      = (ks.foldl SelectList.on_event
          (SelectList.init c.choices c.index 30 10)).index ∧
    (ComboApp.key (ks.foldl ComboApp.key (ComboApp.key ⟨c, none⟩ KEY_ENTER))
        KEY_ENTER).popup = none ∧
    (ComboApp.key (ks.foldl ComboApp.key (ComboApp.key ⟨c, none⟩ KEY_ENTER))
        ASCII_ESC).combo = c ∧
    (ComboApp.key (ks.foldl ComboApp.key (ComboApp.key ⟨c, none⟩ KEY_ENTER))
        ASCII_ESC).popup = none := by
  have hopen : ComboApp.key ⟨c, none⟩ KEY_ENTER
      = ⟨c, some (SelectList.init c.choices c.index 30 10)⟩ := by
    unfold ComboApp.key
    simp [is_enter]
  rw [hopen, comboApp_nav c _ ks hks]
  set fin := ks.foldl SelectList.on_event (SelectList.init c.choices c.index 30 10)
  have henter : ComboApp.key ⟨c, some fin⟩ KEY_ENTER
      = ⟨{ c with index := (SelectList.on_event fin KEY_ENTER).index }, none⟩ := by
    unfold ComboApp.key
    have h1 : ¬ KEY_ENTER = ASCII_ESC := by simp [KEY_ENTER, ASCII_ESC]
    have h2 : is_enter KEY_ENTER = true := by simp [is_enter]
    simp [h1, h2, Combo.on_popup_close]
  have hnoev : SelectList.on_event fin KEY_ENTER = fin := by
    unfold SelectList.on_event
    dsimp only
    rw [if_neg (show ¬(KEY_ENTER = KEY_UP ∧ 0 < fin.index)
      by simp [KEY_ENTER, KEY_UP])]
    rw [if_neg (show ¬(KEY_ENTER = KEY_DOWN ∧
      fin.index < (fin.choices.length : Int) - 1) by simp [KEY_ENTER, KEY_DOWN])]
  have hesc : ComboApp.key ⟨c, some fin⟩ ASCII_ESC = ⟨c, none⟩ := by
    unfold ComboApp.key
    simp [Combo.on_popup_close]
  refine ⟨rfl, rfl, ?_, ?_, ?_, ?_⟩
  · rw [henter, hnoev]
  · rw [henter]
  · rw [hesc]
  · rw [hesc]

/-- Witness for `combo_popup_commit_cancel`: a Combo on `["a","b","c"]` at
index 0, one Down inside the popup. -/
theorem combo_popup_commit_cancel_witness :
    (ComboApp.key (⟨⟨["a","b","c"], 0⟩, none⟩ : ComboApp) KEY_ENTER).popup
        = some (SelectList.init ["a","b","c"] 0 30 10) ∧
    (SelectList.init ["a","b","c"] 0 30 10).index = 0 ∧
    (ComboApp.key (([KEY_DOWN] : List Int).foldl ComboApp.key
        (ComboApp.key ⟨⟨["a","b","c"], 0⟩, none⟩ KEY_ENTER)) KEY_ENTER).combo.index
      = (([KEY_DOWN] : List Int).foldl SelectList.on_event
          (SelectList.init ["a","b","c"] 0 30 10)).index ∧
    (ComboApp.key (([KEY_DOWN] : List Int).foldl ComboApp.key
        (ComboApp.key ⟨⟨["a","b","c"], 0⟩, none⟩ KEY_ENTER)) KEY_ENTER).popup
      = none ∧
    (ComboApp.key (([KEY_DOWN] : List Int).foldl ComboApp.key
        (ComboApp.key ⟨⟨["a","b","c"], 0⟩, none⟩ KEY_ENTER)) ASCII_ESC).combo
      = ⟨["a","b","c"], 0⟩ ∧
    (ComboApp.key (([KEY_DOWN] : List Int).foldl ComboApp.key
        (ComboApp.key ⟨⟨["a","b","c"], 0⟩, none⟩ KEY_ENTER)) ASCII_ESC).popup
      = none :=
  combo_popup_commit_cancel ⟨["a","b","c"], 0⟩ [KEY_DOWN]
    (by intro k hk; simp at hk; right; exact hk)

/-! ### Rect and the Horizontal view (sailor.py lines 87-107, 566-590) -/

structure Rect where
  x : Int
  y : Int
  w : Int
  h : Int
deriving DecidableEq, Repr

/-- `Rect.sub_rect` (line 581). -/
def Rect.sub_rect (r : Rect) (dx dy w h : Int) : Rect :=
  { x := r.x + dx, y := r.y + dy, w := w, h := h }

/-- `Rect.adj_rect` (line 578); the Python defaults `dw = dh = 0` are passed
explicitly by callers here. -/
def Rect.adj_rect (r : Rect) (dx dy dw dh : Int) : Rect :=
  r.sub_rect dx dy (r.w - dx - dw) (r.h - dy - dh)

/-- A child View as the Horizontal container sees it: only its `size`
method matters for measurement and placement. -/
structure HView where
  size : Rect → Int × Int

/-- Python's `max(xs)` on a non-empty list (raises on `[]`; only reached
with at least one view). -/
def pyMaxInt : List Int → Int
  | [] => 0
  | x :: xs => xs.foldl max x

/-- The `sizes` accumulation loop of `Horizontal.size` (lines 93-97): each
view is measured against the rectangle left over after its predecessors'
widths (no margin in this loop). -/
def Horizontal.sizesAux : List HView → Rect → List (Int × Int)
  | [], _ => []
  | v :: vs, rect =>
      v.size rect :: Horizontal.sizesAux vs (rect.adj_rect (v.size rect).1 0 0 0)

/-- `Horizontal.size` (lines 93-101):
`(sum(widths) + max(len(views) - 1, 0) * margin, max(heights))`. -/
def Horizontal.size (views : List HView) (margin : Int) (rect : Rect) :
    Int × Int :=
  let sizes := Horizontal.sizesAux views rect
  ((sizes.map Prod.fst).sum + max ((views.length : Int) - 1) 0 * margin,
   pyMaxInt (sizes.map Prod.snd))

/-- `Horizontal.disp` (lines 103-107): the rectangle each child's
`display` receives; after each child the running rectangle advances by the
child's width plus the margin. -/
def Horizontal.dispRects : List HView → Int → Rect → List Rect
  | [], _, _ => []
  | v :: vs, margin, rect =>
      rect :: Horizontal.dispRects vs margin
        (rect.adj_rect ((v.size rect).1 + margin) 0 0 0)

/-- A view whose measured size does not depend on the rectangle it is
measured against. -/
def constSize (v : HView) : Prop := ∃ wh : Int × Int, ∀ r : Rect, v.size r = wh

theorem sizesAux_const (views : List HView) (hc : ∀ v ∈ views, constSize v)
    (r r' : Rect) :
    Horizontal.sizesAux views r = views.map (fun v => v.size r') := by
  induction views generalizing r with
  | nil => rfl
  | cons v vs ih =>
    obtain ⟨wh, hwh⟩ := hc v (List.mem_cons_self v vs)
    unfold Horizontal.sizesAux
    rw [List.map_cons, hwh r, hwh r',
      ih (fun u hu => hc u (List.mem_cons_of_mem _ hu)) _]

/-- C9: for a Horizontal of n ≥ 1 views with rectangle-independent sizes and
margin m, the measured width is `w1 + ... + wn + m·(n−1)`, and painting
hands child i a rectangle at horizontal offset `Σ_{j<i} (wj + m)` from the
parent rectangle's origin (same vertical origin). -/
theorem horizontal_size_and_offsets (views : List HView) (margin : Int)
    (rect : Rect) (h1 : 1 ≤ views.length) (hc : ∀ v ∈ views, constSize v) :
    (Horizontal.size views margin rect).1
      = (views.map (fun v => (v.size rect).1)).sum
        + ((views.length : Int) - 1) * margin ∧
    (∀ i : Nat, i < views.length →
      ∃ rc : Rect, (Horizontal.dispRects views margin rect)[i]? = some rc ∧
        rc.x = rect.x + ((views.take i).map (fun v => (v.size rect).1)).sum
          + (i : Int) * margin ∧
        rc.y = rect.y) := by
  constructor
  · unfold Horizontal.size
    rw [sizesAux_const views hc rect rect]
    have hmax : max ((views.length : Int) - 1) 0 = (views.length : Int) - 1 := by
      omega
    simp only [hmax, List.map_map]
    rfl
  · intro i hi
    clear h1
    induction views generalizing rect i with
    | nil => simp at hi
    | cons v vs ih =>
      cases i with
      | zero =>
        refine ⟨rect, by simp [Horizontal.dispRects], by simp, rfl⟩
      | succ j =>
        have hj : j < vs.length := by simpa using hi
        obtain ⟨rc, hrc, hrcx, hrcy⟩ :=
          ih (rect.adj_rect ((v.size rect).1 + margin) 0 0 0)
            (fun u hu => hc u (List.mem_cons_of_mem _ hu)) j hj
        refine ⟨rc, by simpa [Horizontal.dispRects] using hrc, ?_, ?_⟩
        · rw [hrcx]
          have hadj : (rect.adj_rect ((v.size rect).1 + margin) 0 0 0).x
              = rect.x + ((v.size rect).1 + margin) := rfl
          rw [hadj]
          have hwidths : (vs.take j).map
                (fun u => (u.size (rect.adj_rect ((v.size rect).1 + margin) 0 0 0)).1)
              = (vs.take j).map (fun u => (u.size rect).1) := by
            apply List.map_congr_left
            intro u hu
            obtain ⟨wh, hwh⟩ := hc u
              (List.mem_cons_of_mem _ (List.mem_of_mem_take hu))
            rw [hwh, hwh]
          rw [hwidths]
          simp [List.take_succ_cons]
          ring
        · rw [hrcy]
          simp [Rect.adj_rect, Rect.sub_rect]

/-- Concrete views for the `horizontal_size_and_offsets` witness: constant
sizes (2,1) and (3,1). -/
def demoViews : List HView := [⟨fun _ => (2, 1)⟩, ⟨fun _ => (3, 1)⟩]

def demoRect : Rect := ⟨0, 0, 80, 24⟩

/-- Witness for `horizontal_size_and_offsets` on two fixed-size views with
margin 1. -/
theorem horizontal_size_and_offsets_witness :
    (Horizontal.size demoViews 1 demoRect).1
      = (demoViews.map (fun v => (v.size demoRect).1)).sum
        + ((demoViews.length : Int) - 1) * 1 ∧
    (∀ i : Nat, i < demoViews.length →
      ∃ rc : Rect, (Horizontal.dispRects demoViews 1 demoRect)[i]? = some rc ∧
        rc.x = demoRect.x
          + ((demoViews.take i).map (fun v => (v.size demoRect).1)).sum
          + (i : Int) * 1 ∧
        rc.y = demoRect.y) :=
  horizontal_size_and_offsets demoViews 1 demoRect (by decide)
    (by
      intro v hv
      simp only [demoViews, List.mem_cons, List.not_mem_nil, or_false] at hv
      rcases hv with h | h <;> exact h ▸ ⟨_, fun r => rfl⟩)

/-! ### Escape dispatch through the layer stack (sailor.py lines 604-738)

A model of `App.dispatch_event` for an Escape key event.  The controls that
matter are a passive root (`Text`-like, never consuming Escape), a
`SelectList` (focusable, ignores Escape) and a `Popup` wrapping an inner
control.  Python object identity (`is`) is modelled by giving every control
a numeric id; the theorems assume the ids are distinct, which is always
true of distinct Python objects. -/

inductive EC where
  | text (id : Nat)
  | selectList (id : Nat)
  | popupOf (id : Nat) (inner : EC)
deriving DecidableEq, Repr

def EC.nid : EC → Nat
  | .text i => i
  | .selectList i => i
  | .popupOf i _ => i

/-- All ids occurring in a control tree. -/
def EC.ids : EC → List Nat
  | .text i => [i]
  | .selectList i => [i]
  | .popupOf i inner => i :: inner.ids

/-- `can_focus`: SelectList sets it (line 328); Text and Popup leave the
Control default `False` (lines 238, 270, 435-442). -/
def EC.can_focus : EC → Bool
  | .selectList _ => true
  | _ => false

/-- The control `Layer.__init__` + `_focus_first` leave focused: the first
focusable control in the walk starting at the root, or the root itself
(lines 607-618). -/
def EC.firstFocusable : EC → Option EC
  | .text _ => none
  | .selectList i => some (.selectList i)
  | .popupOf _ inner => inner.firstFocusable

def layerFocused (root : EC) : EC := (root.firstFocusable).getD root

/-- A dispatch target inside `object_tree(App)`: the App, a Layer (by stack
position), or a control. -/
inductive ENode where
  | app
  | layer (idx : Nat)
  | ctrl (c : EC)
deriving DecidableEq, Repr

/-- Parent of the control with id `t` inside the tree rooted at `root`
(only a Popup has a control child, line 451-452). -/
def findParentIn (root : EC) (t : Nat) : Option EC :=
  match root with
  | .popupOf i inner =>
      if inner.nid = t then some (.popupOf i inner) else findParentIn inner t
  | _ => none

def layersParent : List EC → Nat → Nat → Option ENode
  | [], _, _ => none
  | r :: rest, idx, t =>
      if r.nid = t then some (.layer idx)
      else
        match findParentIn r t with
        | some p => some (.ctrl p)
        | none => layersParent rest (idx + 1) t

/-- `App.get_parent` (lines 676-680) via `object_tree(App)`: the App has no
parent, a Layer's parent is the App, and a control's parent is found by
walking the layers in order. -/
def getParent (layers : List EC) : ENode → Option ENode
  | .app => none
  | .layer _ => some .app
  | .ctrl c => layersParent layers 0 c.nid

structure EApp where
  layers : List EC
  exit : Bool
deriving DecidableEq, Repr

/-- `on_event` of one dispatch target for an Escape key event; the `Bool` is
`ev.propagating` after the call.
* Controls other than Popup do not handle Escape (Text has no handler,
  SelectList only handles up/down, lines 345-354).
* `Popup.on_event` (lines 457-464): `on_close(False, self)` then
  `app.pop_layer()`; it does **not** call `ev.stop()`.
* `Layer.on_event` (lines 645-646): pass.
* `App.on_event` (lines 729-732): sets `exit = True` and stops the event. -/
def escOnEvent (s : EApp) : ENode → EApp × Bool
  | .ctrl (.popupOf _ _) => ({ s with layers := s.layers.dropLast }, true)
  | .ctrl _ => (s, true)
  | .layer _ => (s, true)
  | .app => ({ s with exit := true }, false)

/-- `App.dispatch_event` (lines 722-727) for an Escape event: call the
target's handler, then continue at `get_parent(target)` computed against the
*current* layer stack, while the event is still propagating. -/
def dispatchEsc : Nat → EApp → ENode → EApp
  | 0, s, _ => s
  | fuel + 1, s, t =>
      let r := escOnEvent s t
      if r.2 then
        match getParent r.1.layers t with
        | some p => dispatchEsc fuel r.1 p
        | none => r.1
      else r.1

theorem dispatchEsc_succ (fuel : Nat) (s : EApp) (t : ENode) :
    dispatchEsc (fuel + 1) s t
      = (let r := escOnEvent s t
         if r.2 then
           match getParent r.1.layers t with
           | some p => dispatchEsc fuel r.1 p
           | none => r.1
         else r.1) := rfl

theorem layersParent_nil (idx t : Nat) : layersParent [] idx t = none := rfl

theorem layersParent_cons (r : EC) (rest : List EC) (idx t : Nat) :
    layersParent (r :: rest) idx t
      = if r.nid = t then some (.layer idx)
        else
          match findParentIn r t with
          | some p => some (.ctrl p)
          | none => layersParent rest (idx + 1) t := rfl

theorem nid_mem_ids (c : EC) : c.nid ∈ c.ids := by
  cases c <;> simp [EC.nid, EC.ids]

theorem findParentIn_of_not_mem (root : EC) (t : Nat) (h : t ∉ root.ids) :
    findParentIn root t = none := by
  induction root with
  | text i => rfl
  | selectList i => rfl
  | popupOf i inner ih =>
    unfold findParentIn
    rw [if_neg, ih]
    · intro hmem
      exact h (by simp [EC.ids, hmem])
    · intro heq
      exact h (by simp [EC.ids, heq ▸ nid_mem_ids inner])

/-- C2: dispatching Escape with nothing consuming it below the App:
* on an App whose only layer has a non-Popup root (in particular a
  non-focusable Text root), the event bubbles to the App, which sets
  `exit = true` and leaves the layer stack alone;
* on an App with a Popup layer on top, the Popup closes the top layer; the
  bubbling chain then breaks (the popped Popup has no parent any more), so
  the App never runs its Escape binding and `exit` stays false. -/
theorem escape_dispatch_behavior :
    (∀ r : EC, (∀ (j : Nat) (inner : EC), r ≠ .popupOf j inner) →
        dispatchEsc 6 ⟨[r], false⟩ (.ctrl (layerFocused r))
          = ⟨[r], true⟩) ∧
    (∀ (b : EC) (pid sid : Nat), sid ∉ b.ids → pid ∉ b.ids → sid ≠ pid →
        dispatchEsc 6 ⟨[b, .popupOf pid (.selectList sid)], false⟩
            (.ctrl (layerFocused (.popupOf pid (.selectList sid))))
          = ⟨[b], false⟩) := by
  constructor
  · intro r hr
    cases r with
    | text i =>
      simp [layerFocused, EC.firstFocusable, dispatchEsc, escOnEvent,
        getParent, layersParent, EC.nid]
    | selectList i =>
      simp [layerFocused, EC.firstFocusable, dispatchEsc, escOnEvent,
        getParent, layersParent, EC.nid]
    | popupOf j inner =>
      exact absurd rfl (hr j inner)
  · intro b pid sid hsid hpid hne
    have hb_sid : ¬ b.nid = sid := fun h => hsid (h ▸ nid_mem_ids b)
    have hb_pid : ¬ b.nid = pid := fun h => hpid (h ▸ nid_mem_ids b)
    have hfb_sid := findParentIn_of_not_mem b sid hsid
    have hfb_pid := findParentIn_of_not_mem b pid hpid
    set P := EC.popupOf pid (EC.selectList sid) with hP
    have hfoc : layerFocused P = EC.selectList sid := rfl
    have hfp : findParentIn P sid = some P := by
      rw [hP]
      unfold findParentIn
      rw [if_pos (show (EC.selectList sid).nid = sid from rfl)]
    have g1 : getParent [b, P] (.ctrl (.selectList sid)) = some (.ctrl P) := by
      rw [show getParent [b, P] (.ctrl (.selectList sid))
            = layersParent [b, P] 0 sid from rfl]
      rw [layersParent_cons, if_neg hb_sid, hfb_sid]
      rw [layersParent_cons, if_neg (show ¬ P.nid = sid from fun h => hne h.symm)]
      rw [hfp]
    have g2 : getParent [b] (.ctrl P) = none := by
      rw [show getParent [b] (.ctrl P) = layersParent [b] 0 pid from rfl]
      rw [layersParent_cons, if_neg hb_pid, hfb_pid]
      rw [layersParent_nil]
    rw [hfoc]
    rw [show dispatchEsc 6 (⟨[b, P], false⟩ : EApp) (.ctrl (.selectList sid))
          = (match getParent [b, P] (.ctrl (.selectList sid)) with
             | some p => dispatchEsc 5 (⟨[b, P], false⟩ : EApp) p
             | none => (⟨[b, P], false⟩ : EApp)) from rfl]
    rw [g1]
    show dispatchEsc 5 (⟨[b, P], false⟩ : EApp) (.ctrl P) = (⟨[b], false⟩ : EApp)
    rw [hP]
    rw [show dispatchEsc 5 (⟨[b, EC.popupOf pid (EC.selectList sid)], false⟩ : EApp)
            (.ctrl (EC.popupOf pid (EC.selectList sid)))
          = (match getParent [b] (.ctrl (EC.popupOf pid (EC.selectList sid))) with
             | some p => dispatchEsc 4 (⟨[b], false⟩ : EApp) p
             | none => (⟨[b], false⟩ : EApp)) from rfl]
    rw [← hP, g2]

/-- Witness for `escape_dispatch_behavior`: a single Text-rooted layer, and a
Text base layer under a Popup(SelectList) layer. -/
theorem escape_dispatch_behavior_witness :
    dispatchEsc 6 ⟨[.text 0], false⟩ (.ctrl (layerFocused (.text 0)))
        = ⟨[.text 0], true⟩ ∧
    dispatchEsc 6 ⟨[.text 0, .popupOf 1 (.selectList 2)], false⟩
        (.ctrl (layerFocused (.popupOf 1 (.selectList 2))))
      = ⟨[.text 0], false⟩ :=
  ⟨escape_dispatch_behavior.1 (.text 0) (by intro j inner h; cases h),
   escape_dispatch_behavior.2 (.text 0) 1 2 (by decide) (by decide) (by decide)⟩

/-! ### Layer focus (sailor.py lines 233-263, 593-649)

A control tree abstracted to what focus handling reads: the `can_focus`
flag and the ordered `children` list.  `object_tree` (lines 593-601) pops a
work stack and yields each popped node's children as a block before
descending, so the order in which `_focus_first` meets controls is *not*
the depth-first document order; `Layer.focus` (lines 631-640) on the other
hand recurses depth-first. -/

inductive Ctrl where
  | node (can_focus : Bool) (children : List Ctrl)
deriving Repr

def Ctrl.can_focus : Ctrl → Bool
  | .node cf _ => cf

def Ctrl.children : Ctrl → List Ctrl
  | .node _ cs => cs

mutual
def Ctrl.nsize : Ctrl → Nat
  | .node _ cs => 1 + Ctrl.nsizes cs
def Ctrl.nsizes : List Ctrl → Nat
  | [] => 0
  | c :: cs => Ctrl.nsize c + Ctrl.nsizes cs
end

/-! `Ctrl.subtree`: the nodes of a control tree in depth-first document
order (the tree's node, then each child's subtree in order);
`Control.contains` (lines 249-257) is membership in this list. -/
mutual
def Ctrl.subtree : Ctrl → List Ctrl
  | .node cf cs => .node cf cs :: Ctrl.subtrees cs
def Ctrl.subtrees : List Ctrl → List Ctrl
  | [] => []
  | c :: cs => Ctrl.subtree c ++ Ctrl.subtrees cs
end

/-! `Ctrl.focusTarget`: the control that `Layer.focus(ctrl)` (lines
631-640) will make focused: `ctrl` itself if focusable, else depth-first
through the children; `none` when the recursion returns False. -/
mutual
def Ctrl.focusTarget : Ctrl → Option Ctrl
  | .node cf cs => if cf then some (.node cf cs) else Ctrl.focusTargets cs
def Ctrl.focusTargets : List Ctrl → Option Ctrl
  | [] => none
  | c :: cs =>
      match Ctrl.focusTarget c with
      | some t => some t
      | none => Ctrl.focusTargets cs
end

structure LayerSt where
  root : Ctrl
  focused : Ctrl
deriving Repr

/-- `Layer.focus` (lines 631-640).  The `blur`/`focus` events sent to the
old and new focused controls are dropped: no control in the library reacts
to them (every handler first checks `ev.type == 'key'`). -/
def LayerSt.focus (l : LayerSt) (c : Ctrl) : LayerSt × Bool :=
  match c.focusTarget with
  | some t => ({ l with focused := t }, true)
  | none => (l, false)

theorem Ctrl.nsizes_append (as bs : List Ctrl) :
    Ctrl.nsizes (as ++ bs) = Ctrl.nsizes as + Ctrl.nsizes bs := by
  induction as with
  | nil => simp [Ctrl.nsizes]
  | cons c cs ih =>
    simp [Ctrl.nsizes, ih]
    omega

/-- The sequence of controls yielded by `object_tree` (lines 593-601) after
the starting node, given the work stack (top first): pop a node, yield its
children, push the children (so the next pops descend into the first child
before its siblings, but only after the whole sibling block was yielded). -/
def otChildren : List Ctrl → List Ctrl
  | [] => []
  | c :: rest => c.children ++ otChildren (c.children ++ rest)
termination_by l => Ctrl.nsizes l
decreasing_by
  cases c with
  | node cf cs =>
    simp [Ctrl.children, Ctrl.nsizes_append, Ctrl.nsize, Ctrl.nsizes]

/-- The candidates `_focus_first` (lines 614-618) inspects, in order: the
Layer itself is yielded first but always has `can_focus = False`
(line 610), then the root, then `object_tree`'s order of the rest. -/
def Layer.focusFirstList (root : Ctrl) : List Ctrl :=
  root :: otChildren [root]

/-- `Layer._focus_first` (lines 614-618). -/
def LayerSt.focus_first (l : LayerSt) : LayerSt :=
  match (Layer.focusFirstList l.root).find? Ctrl.can_focus with
  | some c => (l.focus c).1
  | none => l

/-- `Layer._focus_last` (lines 620-626): same list, reversed. -/
def LayerSt.focus_last (l : LayerSt) : LayerSt :=
  match (Layer.focusFirstList l.root).reverse.find? Ctrl.can_focus with
  | some c => (l.focus c).1
  | none => l

/-- `Layer.__init__` (lines 607-612): `focused = root`, then
`_focus_first()`. -/
def Layer.init (root : Ctrl) : LayerSt :=
  LayerSt.focus_first ⟨root, root⟩

/-- The scanning loop shared by `Panel.on_event` (lines 289-300) and
`Composite.on_event` (lines 421-433): starting from child position `i`,
step in the chosen direction and try to focus each child in turn until one
focus succeeds (the event is then stopped) or the index leaves the list.
The fuel only bounds the loop; `controls.length` steps always suffice. -/
def panelNav (l : LayerSt) (controls : List Ctrl) (i : Int) (up : Bool) :
    Nat → LayerSt
  | 0 => l
  | fuel + 1 =>
      if 0 ≤ i ∧ i < (controls.length : Int) then
        let i2 := if up then i - 1 else i + 1
        if 0 ≤ i2 ∧ i2 < (controls.length : Int) then
          match controls[i2.toNat]? with
          | some cand =>
              let r := l.focus cand
              if r.2 then r.1 else panelNav r.1 controls i2 up fuel
          | none => l
        else l
      else l

/-- The Layer focus invariant from the spec: the focused control is the
root, or a focusable control inside the root's tree. -/
def FocusInv (l : LayerSt) : Prop :=
  l.focused = l.root ∨
    (l.focused ∈ l.root.subtree ∧ l.focused.can_focus = true)

/-- The first focusable control in document order. -/
def docFirstFocusable (root : Ctrl) : Option Ctrl :=
  root.subtree.find? Ctrl.can_focus

theorem Ctrl.nsize_pos (c : Ctrl) : 1 ≤ c.nsize := by
  cases c with
  | node cf cs => simp [Ctrl.nsize]

theorem Ctrl.nsize_le_nsizes_of_mem {c : Ctrl} {l : List Ctrl} (h : c ∈ l) :
    c.nsize ≤ Ctrl.nsizes l := by
  induction l with
  | nil => cases h
  | cons d ds ih =>
    rcases List.mem_cons.mp h with h | h
    · subst h; simp [Ctrl.nsizes]
    · have := ih h
      simp [Ctrl.nsizes]
      omega

theorem Ctrl.subtrees_append (as bs : List Ctrl) :
    Ctrl.subtrees (as ++ bs) = Ctrl.subtrees as ++ Ctrl.subtrees bs := by
  induction as with
  | nil => simp [Ctrl.subtrees]
  | cons c cs ih => simp [Ctrl.subtrees, ih]

theorem Ctrl.mem_subtree_self (c : Ctrl) : c ∈ c.subtree := by
  cases c with
  | node cf cs => simp [Ctrl.subtree]

theorem Ctrl.mem_subtrees {l : List Ctrl} {x : Ctrl} :
    x ∈ Ctrl.subtrees l ↔ ∃ d ∈ l, x ∈ d.subtree := by
  induction l with
  | nil => simp [Ctrl.subtrees]
  | cons c cs ih =>
    simp [Ctrl.subtrees, List.mem_append, ih]

theorem Ctrl.subtree_subset_aux :
    ∀ n : Nat, ∀ r : Ctrl, r.nsize ≤ n →
      ∀ c ∈ r.subtree, ∀ x ∈ c.subtree, x ∈ r.subtree := by
  intro n
  induction n with
  | zero =>
    intro r hr
    have := Ctrl.nsize_pos r
    omega
  | succ n ih =>
    intro r hr c hc x hx
    cases r with
    | node cf cs =>
      rw [Ctrl.subtree, List.mem_cons] at hc
      rcases hc with hc | hc
      · subst hc
        exact hx
      · obtain ⟨d, hd, hcd⟩ := Ctrl.mem_subtrees.mp hc
        have hdsz : d.nsize ≤ n := by
          have h1 := Ctrl.nsize_le_nsizes_of_mem hd
          have h2 : Ctrl.nsize (.node cf cs) = 1 + Ctrl.nsizes cs := rfl
          omega
        have hxd : x ∈ d.subtree := ih d hdsz c hcd x hx
        rw [Ctrl.subtree, List.mem_cons]
        right
        exact Ctrl.mem_subtrees.mpr ⟨d, hd, hxd⟩

/-- Membership in a subtree is transitive. -/
theorem Ctrl.subtree_trans {r c x : Ctrl} (hc : c ∈ r.subtree)
    (hx : x ∈ c.subtree) : x ∈ r.subtree :=
  Ctrl.subtree_subset_aux r.nsize r le_rfl c hc x hx

theorem Ctrl.focusTarget_spec_aux :
    ∀ n : Nat,
      (∀ c : Ctrl, c.nsize ≤ n → ∀ t, c.focusTarget = some t →
          t ∈ c.subtree ∧ t.can_focus = true) ∧
      (∀ l : List Ctrl, Ctrl.nsizes l ≤ n → ∀ t, Ctrl.focusTargets l = some t →
          t ∈ Ctrl.subtrees l ∧ t.can_focus = true) := by
  intro n
  induction n with
  | zero =>
    constructor
    · intro c hc
      have := Ctrl.nsize_pos c
      omega
    · intro l hl t ht
      cases l with
      | nil => rw [Ctrl.focusTargets] at ht; cases ht
      | cons c cs =>
        have := Ctrl.nsize_pos c
        have h2 : Ctrl.nsizes (c :: cs) = c.nsize + Ctrl.nsizes cs := rfl
        omega
  | succ n ih =>
    have hctrl : ∀ c : Ctrl, c.nsize ≤ n + 1 → ∀ t, c.focusTarget = some t →
        t ∈ c.subtree ∧ t.can_focus = true := by
      intro c hc t ht
      cases c with
      | node cf cs =>
        rw [Ctrl.focusTarget] at ht
        by_cases hcf : cf = true
        · rw [if_pos hcf] at ht
          cases ht
          exact ⟨Ctrl.mem_subtree_self _, by simpa [Ctrl.can_focus] using hcf⟩
        · rw [if_neg hcf] at ht
          have hsz : Ctrl.nsizes cs ≤ n := by
            have h2 : Ctrl.nsize (.node cf cs) = 1 + Ctrl.nsizes cs := rfl
            omega
          obtain ⟨hmem, hfoc⟩ := (ih.2) cs hsz t ht
          refine ⟨?_, hfoc⟩
          rw [Ctrl.subtree, List.mem_cons]
          right
          exact hmem
    refine ⟨hctrl, ?_⟩
    intro l hl t ht
    cases l with
    | nil => rw [Ctrl.focusTargets] at ht; cases ht
    | cons c cs =>
      rw [Ctrl.focusTargets] at ht
      have hsplit : Ctrl.nsizes (c :: cs) = c.nsize + Ctrl.nsizes cs := rfl
      have hc1 := Ctrl.nsize_pos c
      cases hft : c.focusTarget with
      | some u =>
        rw [hft] at ht
        cases ht
        obtain ⟨hmem, hfoc⟩ := hctrl c (by omega) t hft
        refine ⟨?_, hfoc⟩
        exact Ctrl.mem_subtrees.mpr ⟨c, List.mem_cons_self c cs, hmem⟩
      | none =>
        rw [hft] at ht
        obtain ⟨hmem, hfoc⟩ := ih.2 cs (by omega) t ht
        refine ⟨?_, hfoc⟩
        obtain ⟨d, hd, hxd⟩ := Ctrl.mem_subtrees.mp hmem
        exact Ctrl.mem_subtrees.mpr ⟨d, List.mem_cons_of_mem _ hd, hxd⟩

/-- What `Layer.focus` focuses is a focusable control inside the argument's
subtree. -/
theorem Ctrl.focusTarget_spec {c t : Ctrl} (h : c.focusTarget = some t) :
    t ∈ c.subtree ∧ t.can_focus = true :=
  (Ctrl.focusTarget_spec_aux c.nsize).1 c le_rfl t h

theorem Ctrl.focusTarget_of_can_focus {c : Ctrl} (h : c.can_focus = true) :
    c.focusTarget = some c := by
  cases c with
  | node cf cs =>
    rw [Ctrl.focusTarget, if_pos (by simpa [Ctrl.can_focus] using h)]

theorem otChildren_subset_aux :
    ∀ n : Nat, ∀ l : List Ctrl, Ctrl.nsizes l ≤ n →
      ∀ x ∈ otChildren l, x ∈ Ctrl.subtrees l := by
  intro n
  induction n with
  | zero =>
    intro l hl x hx
    cases l with
    | nil => rw [otChildren] at hx; cases hx
    | cons c cs =>
      have := Ctrl.nsize_pos c
      have h2 : Ctrl.nsizes (c :: cs) = c.nsize + Ctrl.nsizes cs := rfl
      omega
  | succ n ih =>
    intro l hl x hx
    cases l with
    | nil => rw [otChildren] at hx; cases hx
    | cons c cs =>
      rw [otChildren, List.mem_append] at hx
      cases c with
      | node cf ccs =>
        have hsplit : Ctrl.nsizes (Ctrl.node cf ccs :: cs)
            = 1 + Ctrl.nsizes ccs + Ctrl.nsizes cs := by
          show Ctrl.nsize (.node cf ccs) + Ctrl.nsizes cs = _
          show 1 + Ctrl.nsizes ccs + Ctrl.nsizes cs = _
          rfl
        have hchl : Ctrl.children (.node cf ccs) = ccs := rfl
        have hgoal : Ctrl.subtrees (Ctrl.node cf ccs :: cs)
            = Ctrl.subtree (.node cf ccs) ++ Ctrl.subtrees cs := rfl
        rw [hgoal, List.mem_append]
        rcases hx with hx | hx
        · rw [hchl] at hx
          left
          rw [Ctrl.subtree, List.mem_cons]
          right
          exact Ctrl.mem_subtrees.mpr ⟨x, hx, Ctrl.mem_subtree_self x⟩
        · rw [hchl] at hx
          have hrec := ih (ccs ++ cs)
            (by rw [Ctrl.nsizes_append]; omega) x hx
          rw [Ctrl.subtrees_append, List.mem_append] at hrec
          rcases hrec with hrec | hrec
          · left
            rw [Ctrl.subtree, List.mem_cons]
            right
            exact hrec
          · right
            exact hrec

theorem otChildren_subset {l : List Ctrl} {x : Ctrl} (hx : x ∈ otChildren l) :
    x ∈ Ctrl.subtrees l :=
  otChildren_subset_aux (Ctrl.nsizes l) l le_rfl x hx

theorem focus_root (l : LayerSt) (c : Ctrl) : (l.focus c).1.root = l.root := by
  unfold LayerSt.focus
  cases c.focusTarget <;> rfl

theorem focus_preserves (l : LayerSt) (c : Ctrl) (h : FocusInv l)
    (hc : c ∈ l.root.subtree) : FocusInv (l.focus c).1 := by
  unfold LayerSt.focus
  cases hft : c.focusTarget with
  | none => exact h
  | some t =>
    obtain ⟨ht, hcf⟩ := Ctrl.focusTarget_spec hft
    right
    exact ⟨Ctrl.subtree_trans hc ht, hcf⟩

theorem mem_focusFirstList_subtree {root c : Ctrl}
    (h : c ∈ Layer.focusFirstList root) : c ∈ root.subtree := by
  rw [Layer.focusFirstList, List.mem_cons] at h
  rcases h with h | h
  · rw [h]; exact Ctrl.mem_subtree_self root
  · have hs := otChildren_subset h
    have he : Ctrl.subtrees [root] = root.subtree ++ Ctrl.subtrees [] := rfl
    rw [he] at hs
    simpa [Ctrl.subtrees] using hs

theorem focus_first_preserves (l : LayerSt) (h : FocusInv l) :
    FocusInv l.focus_first := by
  unfold LayerSt.focus_first
  cases hf : (Layer.focusFirstList l.root).find? Ctrl.can_focus with
  | none => exact h
  | some c =>
    have hcf : Ctrl.can_focus c = true := List.find?_some hf
    have hmem := mem_focusFirstList_subtree (List.mem_of_find?_eq_some hf)
    simp only [LayerSt.focus, Ctrl.focusTarget_of_can_focus hcf]
    right
    exact ⟨hmem, hcf⟩

theorem focus_last_preserves (l : LayerSt) (h : FocusInv l) :
    FocusInv l.focus_last := by
  unfold LayerSt.focus_last
  cases hf : (Layer.focusFirstList l.root).reverse.find? Ctrl.can_focus with
  | none => exact h
  | some c =>
    have hcf : Ctrl.can_focus c = true := List.find?_some hf
    have hmem := mem_focusFirstList_subtree
      (List.mem_reverse.mp (List.mem_of_find?_eq_some hf))
    simp only [LayerSt.focus, Ctrl.focusTarget_of_can_focus hcf]
    right
    exact ⟨hmem, hcf⟩

theorem panelNav_preserves :
    ∀ (fuel : Nat) (l : LayerSt) (controls : List Ctrl) (i : Int) (up : Bool),
      FocusInv l → (∀ c ∈ controls, c ∈ l.root.subtree) →
      FocusInv (panelNav l controls i up fuel) := by
  intro fuel
  induction fuel with
  | zero =>
    intro l controls i up h _
    exact h
  | succ fuel ih =>
    intro l controls i up h hcs
    rw [panelNav]
    by_cases h1 : 0 ≤ i ∧ i < (controls.length : Int)
    · rw [if_pos h1]
      by_cases h2 : 0 ≤ (if up then i - 1 else i + 1) ∧
          (if up then i - 1 else i + 1) < (controls.length : Int)
      · rw [if_pos h2]
        cases hcand : controls[(if up then i - 1 else i + 1).toNat]? with
        | none => exact h
        | some cand =>
          dsimp only
          have hcmem : cand ∈ controls := by
            have := List.getElem?_eq_some_iff.mp hcand
            obtain ⟨hlt, heq⟩ := this
            exact heq ▸ List.getElem_mem hlt
          have hfp := focus_preserves l cand h (hcs cand hcmem)
          by_cases hr : (l.focus cand).2 = true
          · rw [if_pos hr]
            exact hfp
          · rw [if_neg hr]
            refine ih _ controls _ up hfp ?_
            intro c hc
            rw [focus_root]
            exact hcs c hc
      · rw [if_neg h2]
        exact h
    · rw [if_neg h1]
      exact h

/-- C4 (amended): for every Layer the focused control is the root or a
focusable control in the root's subtree.  Construction establishes this —
focusing the first focusable control in `object_tree` traversal order
(which yields each node's children as a block and may differ from
document order), or leaving `focused = root` when none exists — and it is
preserved by every `focus()` call whose argument lies in the root's
subtree, by the App's first/last-focus recovery, and by every
Panel/Composite navigation scan. -/
theorem layer_focus_invariant :
    (∀ root : Ctrl, FocusInv (Layer.init root)) ∧
    (∀ root c, (Layer.focusFirstList root).find? Ctrl.can_focus = some c →
        (Layer.init root).focused = c) ∧
    (∀ root : Ctrl, (Layer.focusFirstList root).find? Ctrl.can_focus = none →
        Layer.init root = ⟨root, root⟩) ∧
    (∀ (l : LayerSt) (c : Ctrl), FocusInv l → c ∈ l.root.subtree →
        FocusInv (l.focus c).1) ∧
    (∀ l : LayerSt, FocusInv l → FocusInv l.focus_first ∧ FocusInv l.focus_last) ∧
    (∀ (l : LayerSt) (controls : List Ctrl) (i : Int) (up : Bool) (fuel : Nat),
        FocusInv l → (∀ c ∈ controls, c ∈ l.root.subtree) →
        FocusInv (panelNav l controls i up fuel)) := by
  refine ⟨?_, ?_, ?_, focus_preserves, ?_, ?_⟩
  · intro root
    exact focus_first_preserves ⟨root, root⟩ (Or.inl rfl)
  · intro root c hf
    unfold Layer.init LayerSt.focus_first
    rw [hf]
    have hcf : Ctrl.can_focus c = true := List.find?_some hf
    simp only [LayerSt.focus, Ctrl.focusTarget_of_can_focus hcf]
  · intro root hf
    unfold Layer.init LayerSt.focus_first
    rw [hf]
  · intro l h
    exact ⟨focus_first_preserves l h, focus_last_preserves l h⟩
  · intro l controls i up fuel h hcs
    exact panelNav_preserves fuel l controls i up h hcs

/-- A focusable control with one (non-focusable) child, so that it is
distinguishable from the bare focusable `node true []`. -/
def gDemo : Ctrl := .node true [.node false []]

/-- Root whose document-order-first focusable control (`gDemo`, a
grandchild of the first child) differs from the first focusable in
`object_tree` order (the second child `node true []`). -/
def cexRoot : Ctrl :=
  .node false [.node false [.node false [gDemo]], .node true []]

/-- C4 counterexample: the claim as stated fails in two ways.
(i) `Layer` construction does *not* focus the first focusable control in
document order: on `cexRoot` the depth-first-first focusable is `gDemo`,
but `object_tree` yields sibling blocks before descending, so `__init__`
focuses the root's second child instead.
(ii) a successful `focus()` call on a focusable control *outside* the
root's subtree succeeds and leaves `focused` as neither the root nor one
of its descendants, breaking the invariant. -/
theorem layer_focus_claim_fails :
    (docFirstFocusable cexRoot = some gDemo ∧
     (Layer.init cexRoot).focused ≠ gDemo) ∧
    ((LayerSt.focus ⟨.node false [], .node false []⟩ (.node true [])).2 = true ∧
     FocusInv (⟨.node false [], .node false []⟩ : LayerSt) ∧
     ¬ FocusInv (LayerSt.focus ⟨.node false [], .node false []⟩
        (.node true [])).1) := by
  refine ⟨⟨?_, ?_⟩, ?_, Or.inl rfl, ?_⟩
  · simp [docFirstFocusable, cexRoot, gDemo, Ctrl.subtree, Ctrl.subtrees,
      List.find?, Ctrl.can_focus]
  · have hfoc : (Layer.init cexRoot).focused = Ctrl.node true [] := by
      simp [Layer.init, LayerSt.focus_first, Layer.focusFirstList, otChildren,
        cexRoot, gDemo, Ctrl.children, List.find?, Ctrl.can_focus,
        LayerSt.focus, Ctrl.focusTarget, Ctrl.focusTargets]
    rw [hfoc]
    simp [gDemo]
  · simp [LayerSt.focus, Ctrl.focusTarget]
  · simp [FocusInv, LayerSt.focus, Ctrl.focusTarget, Ctrl.subtree,
      Ctrl.subtrees, Ctrl.can_focus]

def demoRootC : Ctrl := .node false [.node true []]

/-- Witness for `layer_focus_invariant` on a two-node layer. -/
theorem layer_focus_invariant_witness :
    FocusInv ((LayerSt.focus ⟨demoRootC, demoRootC⟩ demoRootC).1) ∧
    (FocusInv (LayerSt.focus_first ⟨demoRootC, demoRootC⟩) ∧
     FocusInv (LayerSt.focus_last ⟨demoRootC, demoRootC⟩)) ∧
    FocusInv (panelNav ⟨demoRootC, demoRootC⟩ [Ctrl.node true []] 0 false 2) :=
  ⟨layer_focus_invariant.2.2.2.1 ⟨demoRootC, demoRootC⟩ demoRootC (Or.inl rfl)
      (Ctrl.mem_subtree_self demoRootC),
   (layer_focus_invariant.2.2.2.2.1 ⟨demoRootC, demoRootC⟩ (Or.inl rfl)),
   layer_focus_invariant.2.2.2.2.2 ⟨demoRootC, demoRootC⟩ [Ctrl.node true []]
      0 false 2 (Or.inl rfl)
      (by
        intro c hc
        simp only [List.mem_singleton] at hc
        rw [hc]
        simp [demoRootC, Ctrl.subtree, Ctrl.subtrees])⟩

end Sailor
